import Mathlib

/-!
Shallow embedding of the npm-downloads acquisition-and-ingestion pipeline
(repository `make-github-pseudonymous-again/lib`).

The embedding covers:

* the batch partitioner (`internals/npm/batches.go`: `PackageDownloadBatches`,
  `internals/arrays`: `Chunk`, `internals/npm/names`: `IsScopedPackageName`);
* the response-normalization logic of the bounded fetch scheduler
  (`internals/npm/batches.go`: `FetchBatch`, `FetchBatchSingle`, `FetchBatchMany`);
* the search pagination loop (`internals/npm/registry.go`: `Search`);
* the record transformer (`main.go`: `createBatchArgs`) together with Go's
  `time.Parse` for the fixed layout `2006-01-02` and the weekday computation of
  the proleptic Gregorian calendar used by `time.Time`;
* the conflict-resolving upsert statement (`main.go`: `DownloadsUpsertTemplate`)
  acting on an abstract relational store keyed by
  `(name, date_year, date_month, date_day)`, and the per-series sub-batched
  execution of `scheduleInserts`;
* the package-list assembly of `main` (append search hits and positional
  arguments, `slices.Sort`, then `slices.Compact` whose return value the code
  discards).

Network transport and JSON decoding are external collaborators: functions that
consume a decoded response take the decode outcome (`Except`) as an argument.
Go `int` is modelled as `Int`; timestamps (`time.Time` values used only as
opaque payloads, such as `requestTime`) are modelled as `Nat`.  Channel
emissions are modelled as lists of emitted values: the claims proved below are
counting/shape properties that do not depend on interleaving order.
-/

namespace NpmDownloads

/-- `DailyDownload` of `internals/npm/batches.go`: one (day, count) point. -/
structure DailyDownload where
  Downloads : Int
  Day : String
deriving DecidableEq, Repr

/-- `SinglePackageResponse` of `internals/npm/batches.go`: the per-package
response shape of the downloads-range endpoint. -/
structure SinglePackageResponse where
  Error : String
  Start : String
  End : String
  Package : String
  Downloads : List DailyDownload
deriving DecidableEq, Repr

/-- `Batch` of `internals/npm/batches.go`: a period plus the package names
queried together in one request. -/
structure Batch where
  Period : String
  Packages : List String
deriving DecidableEq, Repr

/-- `MaxBatchSize` of `internals/npm/batches.go`. -/
def MaxBatchSize : Nat := 128

/-- `Chunk` of `internals/arrays` (src/unnamed/part_003): splits a list into
consecutive groups `array[i:i+size]`.  In Go a zero `size` makes the loop
diverge on nonempty input; the claims only use positive sizes and we return
`[]` for `size = 0`. -/
def Chunk {α : Type} : List α → Nat → List (List α)
  | _, 0 => []
  | [], _ + 1 => []
  | x :: xs, n + 1 => (x :: xs).take (n + 1) :: Chunk ((x :: xs).drop (n + 1)) (n + 1)
termination_by l _ => l.length
decreasing_by simp [List.length_drop]; omega

/-- `IsScopedPackageName` of `internals/npm/names` (src/unnamed/part_003):
a scoped name carries the distinguished "@" first character. -/
def IsScopedPackageName (name : String) : Bool :=
  name.startsWith "@"

/-- `PackageDownloadBatches` of `internals/npm/batches.go`: partition the
input into scoped and non-scoped names (the Go loop appends in input order,
i.e. `filter`), chunk the non-scoped names by `MaxBatchSize`, and emit one
batch per chunk followed by one singleton batch per scoped name. -/
def PackageDownloadBatches (period : String) (packageNames : List String) : List Batch :=
  (Chunk (packageNames.filter (fun pkg => !IsScopedPackageName pkg)) MaxBatchSize).map
      (fun packages => { Period := period, Packages := packages }) ++
    (packageNames.filter (fun pkg => IsScopedPackageName pkg)).map
      (fun pkg => { Period := period, Packages := [pkg] })

/-- One value emitted by a fetch worker: either a normalized series sent to the
results channel or an error message sent to the errors channel. -/
inductive FetchOut where
  | series (response : SinglePackageResponse)
  | error (msg : String)
deriving DecidableEq, Repr

/-- The error message `fmt.Errorf("package %v not found", key)` of
`FetchBatchMany` in `internals/npm/batches.go`. -/
def notFoundMessage (key : String) : String :=
  "package " ++ key ++ " not found"

/-- The per-entry normalization of `FetchBatchMany` (`internals/npm/batches.go`
lines 109-115): an entry whose `Package` field is empty is surfaced as a
not-found error for its map key, any other entry is surfaced as a series. -/
def emitManyEntry (entry : String × SinglePackageResponse) : FetchOut :=
  if entry.2.Package == "" then FetchOut.error (notFoundMessage entry.1)
  else FetchOut.series entry.2

/-- The emissions of `FetchBatchMany` after a successful decode of the
multi-package response.  A Go map is modelled as an association list (its keys
are distinct); Go iterates the map in arbitrary order and the proved
properties are order-insensitive. -/
def FetchBatchManyEmits (responses : List (String × SinglePackageResponse)) : List FetchOut :=
  responses.map emitManyEntry

/-- The emissions of `FetchBatchSingle` after a successful decode
(`internals/npm/batches.go` lines 89-93): a response carrying a non-empty
`Error` field becomes one error, any other response becomes one series. -/
def FetchBatchSingleEmits (response : SinglePackageResponse) : List FetchOut :=
  if response.Error != "" then [FetchOut.error response.Error]
  else [FetchOut.series response]

/-- `FetchBatch` of `internals/npm/batches.go`: dispatch on the batch size.
A batch of exactly one name goes to the single-package endpoint, a batch of at
least two names to the multi-package endpoint, and an empty batch matches
neither branch.  The transport/decode outcome of each endpoint is an `Except`
argument; a transport or decode failure is emitted as one batch-level error
(`err` is sent to the errors channel and the handler returns). -/
def FetchBatchEmits (batch : Batch)
    (singleDecode : Except String SinglePackageResponse)
    (multiDecode : Except String (List (String × SinglePackageResponse))) : List FetchOut :=
  (if batch.Packages.length = 1 then
    match singleDecode with
    | Except.error e => [FetchOut.error e]
    | Except.ok response => FetchBatchSingleEmits response
   else []) ++
  (if 2 ≤ batch.Packages.length then
    match multiDecode with
    | Except.error e => [FetchOut.error e]
    | Except.ok responses => FetchBatchManyEmits responses
   else [])

/-! ### Dates: Go's `time.Parse` with layout `2006-01-02` and `time.Time`'s
year/month/day/weekday decomposition. -/

/-- Gregorian leap-year rule, as in Go's `time.isLeap`. -/
def isLeapYear (y : Nat) : Bool :=
  y % 4 == 0 && (y % 100 != 0 || y % 400 == 0)

/-- Number of days of month `m` (1..12) of year `y`. -/
def daysInMonth (y m : Nat) : Nat :=
  match m with
  | 1 => 31
  | 2 => if isLeapYear y then 29 else 28
  | 3 => 31
  | 4 => 30
  | 5 => 31
  | 6 => 30
  | 7 => 31
  | 8 => 31
  | 9 => 30
  | 10 => 31
  | 11 => 30
  | 12 => 31
  | _ => 0

/-- Numeric value of a decimal digit character. -/
def digitVal (c : Char) : Nat :=
  c.toNat - '0'.toNat

/-- Go's `time.Parse("2006-01-02", s)`: exactly four year digits, a dash, two
month digits, a dash, two day digits, nothing else; the month must be in
1..12 and the day must exist in that month (Go reports "day out of range"
otherwise).  Returns the `(year, month, day)` triple. -/
def parseDate (s : String) : Option (Nat × Nat × Nat) :=
  match s.data with
  | [y1, y2, y3, y4, h1, m1, m2, h2, d1, d2] =>
    if y1.isDigit && y2.isDigit && y3.isDigit && y4.isDigit && h1 == '-' &&
        m1.isDigit && m2.isDigit && h2 == '-' && d1.isDigit && d2.isDigit then
      let y := digitVal y1 * 1000 + digitVal y2 * 100 + digitVal y3 * 10 + digitVal y4
      let m := digitVal m1 * 10 + digitVal m2
      let d := digitVal d1 * 10 + digitVal d2
      if 1 ≤ m && m ≤ 12 && 1 ≤ d && d ≤ daysInMonth y m then some (y, m, d)
      else none
    else none
  | _ => none

/-- Number of leap years in `[0, y)` of the proleptic Gregorian calendar
(year 0 is a leap year). -/
def leapsBefore (y : Nat) : Nat :=
  if y = 0 then 0 else (y - 1) / 4 - (y - 1) / 100 + (y - 1) / 400 + 1

/-- Days of year `y` before the first of month `m`. -/
def daysBeforeMonth (y m : Nat) : Nat :=
  let base :=
    match m with
    | 1 => 0
    | 2 => 31
    | 3 => 59
    | 4 => 90
    | 5 => 120
    | 6 => 151
    | 7 => 181
    | 8 => 212
    | 9 => 243
    | 10 => 273
    | 11 => 304
    | _ => 334
  base + (if 3 ≤ m && isLeapYear y then 1 else 0)

/-- Days since 0000-01-01 of the proleptic Gregorian calendar. -/
def absDay (y m d : Nat) : Nat :=
  365 * y + leapsBefore y + daysBeforeMonth y m + (d - 1)

/-- Go's `time.Time.Weekday` numeric code (Sunday = 0): 0000-01-01 of the
proleptic Gregorian calendar is a Saturday (= 6), and Go's zero time
0001-01-01 a Monday (= 1). -/
def weekdayOf (y m d : Nat) : Nat :=
  (6 + absDay y m d) % 7

/-! ### The downloads table and the upsert statement. -/

/-- One row of the `downloads` table, as inserted by main.go's
`DownloadsUpsertTemplate` (the autoincrement `id` is not part of the
statement).  `date` is the parsed `time.Time` (a calendar day), and
`last_updated_at` the run's `requestTime`. -/
structure Row where
  name : String
  count : Int
  date : Nat × Nat × Nat
  last_updated_at : Nat
  date_year : Nat
  date_month : Nat
  date_day : Nat
  date_day_of_week : Nat
deriving DecidableEq, Repr

/-- The unique key `(name, date_year, date_month, date_day)` of a row. -/
def keyOf (r : Row) : String × Nat × Nat × Nat :=
  (r.name, r.date_year, r.date_month, r.date_day)

/-- The stored table: at most one row per unique key. -/
def Store : Type :=
  (String × Nat × Nat × Nat) → Option Row

/-- The conflict update `DO UPDATE SET count=excluded.count,
last_updated_at=excluded.last_updated_at`: only those two columns change. -/
def rowUpdate (old incoming : Row) : Row :=
  { old with count := incoming.count, last_updated_at := incoming.last_updated_at }

/-- Effect of one `VALUES` row on the (optional) stored row of its key:
insert when absent; on conflict update `count` and `last_updated_at` only
`WHERE excluded.count > downloads.count`, otherwise keep the row unchanged. -/
def conflictStep (stored : Option Row) (incoming : Row) : Option Row :=
  match stored with
  | none => some incoming
  | some old => if old.count < incoming.count then some (rowUpdate old incoming) else some old

/-- The upsert statement for one `VALUES` row, acting on the whole store. -/
def upsertRow (st : Store) (r : Row) : Store :=
  fun k => if k = keyOf r then conflictStep (st k) r else st k

/-- One execution of the (multi-`VALUES`) upsert statement: SQLite processes
the value rows of the statement in order. -/
def execStatement (st : Store) (rows : List Row) : Store :=
  rows.foldl upsertRow st

/-- The `(year, month, day)` used for a point's `Day` string: the parsed date,
or Go's zero `time.Time` (January 1 of year 1) when `time.Parse` fails --
`createBatchArgs` in main.go only logs the parse error and keeps the zero
`date` value. -/
def ymdOf (day : String) : Nat × Nat × Nat :=
  (parseDate day).getD (1, 1, 1)

/-- The row that `createBatchArgs` (main.go lines 267-306) builds for one
point: `(name, count, date, last_updated_at, year, month, day, day_of_week)`. -/
def rowOfPoint (name : String) (requestTime : Nat) (p : DailyDownload) : Row :=
  let ymd := ymdOf p.Day
  { name := name
    count := p.Downloads
    date := ymd
    last_updated_at := requestTime
    date_year := ymd.1
    date_month := ymd.2.1
    date_day := ymd.2.2
    date_day_of_week := weekdayOf ymd.1 ymd.2.1 ymd.2.2 }

/-- `createBatchArgs` of main.go: the argument rows of one statement, one per
point of the sub-batch.  Note that the Go function has no error result: a
point whose `Day` fails to parse still contributes a row (with the zero
date). -/
def createBatchArgs (requestTime : Nat) (name : String) (batch : List DailyDownload) : List Row :=
  batch.map (rowOfPoint name requestTime)

/-- The storage effect of `scheduleInserts` (main.go lines 308-346) for one
fetched series: the downloads are cut into sub-batches of `batchSize`
(`i += batchSize`, `j = min(i+batchSize, len)` is exactly `Chunk`), and each
sub-batch executes one upsert statement.  The insert queue has capacity 1, so
statement executions are serialized; the store they produce is their
sequential composition. -/
def scheduleInsertsState (st : Store) (batchSize : Nat) (pkg : SinglePackageResponse)
    (requestTime : Nat) : Store :=
  (Chunk pkg.Downloads batchSize).foldl
    (fun s b => execStatement s (createBatchArgs requestTime pkg.Package b)) st

/-! ### The search pagination loop of `internals/npm/registry.go`. -/

/-- `PageSize` of `internals/npm/registry.go`. -/
def PageSize : Nat := 250

/-- One value emitted by `Search`: a hit sent to the results channel or an
error sent to the errors channel.  Hits are opaque payloads (the Go code
forwards `response.Objects` untouched). -/
inductive SearchEmit (α : Type) where
  | hit (object : α)
  | err (msg : String)
deriving DecidableEq, Repr

/-- The loop of `Search` (`internals/npm/registry.go` lines 105-128), as a
function of the page oracle `fetchPage` (the transport/decode outcome of the
request at a given `from` offset).  On a fetch error: emit the error and
return.  Otherwise emit every object of the page; stop if the page is short,
else continue at `offset + PageSize`.  The Go loop has no bound, so the model
takes fuel; the returned flag is `true` exactly when the loop terminated by
itself within the given fuel. -/
def searchPages {α : Type} (fetchPage : Nat → Except String (List α)) :
    Nat → Nat → List (SearchEmit α) × Bool
  | 0, _ => ([], false)
  | fuel + 1, offset =>
    match fetchPage offset with
    | Except.error e => ([SearchEmit.err e], true)
    | Except.ok objects =>
      if objects.length < PageSize then (objects.map SearchEmit.hit, true)
      else
        let rest := searchPages fetchPage fuel (offset + PageSize)
        (objects.map SearchEmit.hit ++ rest.1, rest.2)

/-- The hits of the page fetched at offset `offset + PageSize * k`. -/
def pageHits {α : Type} (fetchPage : Nat → Except String (List α)) (offset k : Nat) :
    List (SearchEmit α) :=
  match fetchPage (offset + PageSize * k) with
  | Except.ok objects => objects.map SearchEmit.hit
  | Except.error _ => []

/-- All hits of the first `n` pages starting at `offset`. -/
def hitsUpTo {α : Type} (fetchPage : Nat → Except String (List α)) (offset n : Nat) :
    List (SearchEmit α) :=
  ((List.range n).map (pageHits fetchPage offset)).flatten

/-! ### The package-list assembly of `main` (main.go lines 135-172). -/

/-- Lexicographic strictly-less on character lists. -/
def charListLtb : List Char → List Char → Bool
  | [], [] => false
  | [], _ :: _ => true
  | _ :: _, [] => false
  | x :: xs, y :: ys => if x < y then true else if y < x then false else charListLtb xs ys

/-- Go's `a < b` on strings: byte-wise lexicographic comparison (for UTF-8
strings, byte order and code-point order coincide). -/
def strLtb (a b : String) : Bool :=
  charListLtb a.data b.data

/-- Insertion of one string into an ascending list: after every element
strictly below it. -/
def insertSorted (x : String) : List String → List String
  | [] => [x]
  | y :: ys => if strLtb y x then y :: insertSorted x ys else x :: y :: ys

/-- `slices.Sort` on a string slice: the ascending reordering. -/
def sortStrings : List String → List String
  | [] => []
  | x :: xs => insertSorted x (sortStrings xs)

/-- Tail of Go's `slices.Compact`: drop every element equal to the previous
kept element. -/
def compactAfter (prev : String) : List String → List String
  | [] => []
  | y :: ys => if y == prev then compactAfter prev ys else y :: compactAfter y ys

/-- `slices.Compact`: replace consecutive runs of equal elements by a single
copy (the returned, shorter slice). -/
def compactGo : List String → List String
  | [] => []
  | x :: xs => x :: compactAfter x xs

/-- What the `packages` slice holds after main.go line 164
`slices.Compact(packages)` — whose return value is DISCARDED: the slice keeps
its original length, holding the compacted prefix followed by zeroed ("" in
Go >= 1.22) elements. -/
def compactDiscarded (l : List String) : List String :=
  compactGo l ++ List.replicate (l.length - (compactGo l).length) ""

/-- The package-name list that `main` hands to `PackageDownloadBatches`
(main.go lines 135-172): search hits appended with the positional arguments,
then `slices.Sort(packages)` followed by the discarded
`slices.Compact(packages)`. -/
def mainPackageList (searchHits argPackages : List String) : List String :=
  compactDiscarded (sortStrings (searchHits ++ argPackages))

/-! ### Concrete fixtures used by the witness theorems. -/

/-- A store holding exactly one row, for the upsert witnesses. -/
def witnessStore : Store :=
  fun k =>
    if k = ("p", 2023, 3, 15) then
      some { name := "p", count := 3, date := (2023, 3, 15), last_updated_at := 1,
             date_year := 2023, date_month := 3, date_day := 15, date_day_of_week := 3 }
    else none

/-- The stored row of `witnessStore`. -/
def witnessOldRow : Row :=
  { name := "p", count := 3, date := (2023, 3, 15), last_updated_at := 1,
    date_year := 2023, date_month := 3, date_day := 15, date_day_of_week := 3 }

/-- An incoming row with a strictly greater count for the same key. -/
def witnessNewRow : Row :=
  { name := "p", count := 5, date := (2023, 3, 15), last_updated_at := 9,
    date_year := 2023, date_month := 3, date_day := 15, date_day_of_week := 3 }

/-- A first fetched series for the idempotence witness. -/
def witnessSeries1 : SinglePackageResponse :=
  { Error := "", Start := "", End := "", Package := "p",
    Downloads := [{ Downloads := 3, Day := "2023-03-15" }] }

/-- The same series re-fetched with a larger count. -/
def witnessSeries2 : SinglePackageResponse :=
  { Error := "", Start := "", End := "", Package := "p",
    Downloads := [{ Downloads := 5, Day := "2023-03-15" }] }

/-- The empty store. -/
def emptyStore : Store :=
  fun _ => none

/-- A two-entry multi-package response: "a" found, "b" not found. -/
def witnessManyResponses : List (String × SinglePackageResponse) :=
  [("a", { Error := "", Start := "", End := "", Package := "a", Downloads := [] }),
   ("b", { Error := "", Start := "", End := "", Package := "", Downloads := [] })]

/-- A successful single-package response with an empty downloads list. -/
def witnessSingleResponse : SinglePackageResponse :=
  { Error := "", Start := "", End := "", Package := "left-pad", Downloads := [] }

/-- A page oracle: one full page at offset 0, then an empty page. -/
def witnessFetchPage : Nat → Except String (List Nat) :=
  fun offset => if offset = 0 then Except.ok (List.replicate PageSize 0) else Except.ok []

/-! ### Proof-infrastructure definitions for the idempotence argument.
All rows that `createBatchArgs` produces for one key agree on every field but
`count`; a store key's evolution is a fold of `conflictStep` over such rows. -/

/-- A row differing from `base` only in its count. -/
def bump (base : Row) (c : Int) : Row :=
  { base with count := c }

/-- The effect of pushing count `c` (with `base`'s `last_updated_at`) onto one
key's stored row: insert `bump base c` when absent, else the conflict
update. -/
def Fstep (base : Row) : Option Row → Int → Option Row
  | none, c => some (bump base c)
  | some v, c => if v.count < c then some (rowUpdate v (bump base c)) else some v

/-- The shared non-count fields of every row `createBatchArgs` builds for key
`k` at timestamp `requestTime` (the `date`, decomposition and weekday columns
are functions of the key alone). -/
def baseRowOfKey (requestTime : Nat) (k : String × Nat × Nat × Nat) : Row :=
  { name := k.1
    count := 0
    date := k.2
    last_updated_at := requestTime
    date_year := k.2.1
    date_month := k.2.2.1
    date_day := k.2.2.2
    date_day_of_week := weekdayOf k.2.1 k.2.2.1 k.2.2.2 }

/-! ## Theorems -/

/-! ### Chunk lemmas -/

theorem Chunk_flatten {α : Type} (n : Nat) : (l : List α) → (Chunk l (n + 1)).flatten = l
  | [] => by simp [Chunk]
  | x :: xs => by
    rw [Chunk]
    simp only [List.flatten_cons]
    rw [Chunk_flatten n ((x :: xs).drop (n + 1))]
    exact List.take_append_drop _ _
termination_by l => l.length
decreasing_by simp [List.length_drop]; omega

theorem Chunk_length_le {α : Type} (n : Nat) :
    (l : List α) → ∀ c ∈ Chunk l (n + 1), c.length ≤ n + 1
  | [] => by simp [Chunk]
  | x :: xs => by
    rw [Chunk]
    intro c hc
    rcases List.mem_cons.1 hc with rfl | hc
    · exact List.length_take_le _ _
    · exact Chunk_length_le n ((x :: xs).drop (n + 1)) c hc
termination_by l => l.length
decreasing_by simp [List.length_drop]; omega

theorem mem_of_mem_Chunk {α : Type} {n : Nat} {l c : List α} {x : α}
    (hc : c ∈ Chunk l (n + 1)) (hx : x ∈ c) : x ∈ l := by
  rw [← Chunk_flatten n l]
  exact List.mem_flatten.2 ⟨c, hc, hx⟩

theorem Chunk_nil {α : Type} (size : Nat) : Chunk ([] : List α) size = [] := by
  cases size with
  | zero => rw [Chunk]
  | succ n => rw [Chunk]

theorem Chunk_flatten_of_pos {α : Type} {size : Nat} (hs : 0 < size) (l : List α) :
    (Chunk l size).flatten = l := by
  cases size with
  | zero => exact absurd hs (by omega)
  | succ n => exact Chunk_flatten n l

theorem Chunk_length_le_of_pos {α : Type} {size : Nat} (hs : 0 < size) (l : List α) :
    ∀ c ∈ Chunk l size, c.length ≤ size := by
  cases size with
  | zero => exact absurd hs (by omega)
  | succ n => exact Chunk_length_le n l

theorem flatten_map_singleton {α : Type} : (l : List α) → (l.map (fun a => [a])).flatten = l
  | [] => rfl
  | x :: xs => by simp [flatten_map_singleton xs]

/-- C3: for every list of package names and every period,
`PackageDownloadBatches` returns batches of size at most `MaxBatchSize`; every
batch containing a scoped name is a singleton; the concatenation of all
batches is, as a multiset, exactly the input (no name duplicated, no name
omitted); and the empty input yields the empty sequence. -/
theorem packageDownloadBatches_correct (period : String) (packageNames : List String) :
    (∀ b ∈ PackageDownloadBatches period packageNames, b.Packages.length ≤ MaxBatchSize) ∧
    (∀ b ∈ PackageDownloadBatches period packageNames,
      (∃ p ∈ b.Packages, IsScopedPackageName p = true) → b.Packages.length = 1) ∧
    ((PackageDownloadBatches period packageNames).map Batch.Packages).flatten.Perm
      packageNames ∧
    (packageNames = [] → PackageDownloadBatches period packageNames = []) := by
  refine ⟨?_, ?_, ?_, ?_⟩
  · intro b hb
    unfold PackageDownloadBatches at hb
    rcases List.mem_append.1 hb with hb | hb
    · obtain ⟨c, hc, rfl⟩ := List.mem_map.1 hb
      exact Chunk_length_le_of_pos (by decide) _ c hc
    · obtain ⟨p, _, rfl⟩ := List.mem_map.1 hb
      simp [MaxBatchSize]
  · intro b hb hscoped
    unfold PackageDownloadBatches at hb
    rcases List.mem_append.1 hb with hb | hb
    · obtain ⟨c, hc, rfl⟩ := List.mem_map.1 hb
      obtain ⟨p, hp, hps⟩ := hscoped
      have hmem : p ∈ packageNames.filter (fun pkg => !IsScopedPackageName pkg) := by
        rw [← Chunk_flatten_of_pos (show 0 < MaxBatchSize by decide)
          (packageNames.filter (fun pkg => !IsScopedPackageName pkg))]
        exact List.mem_flatten.2 ⟨_, hc, hp⟩
      have := List.of_mem_filter hmem
      simp [hps] at this
    · obtain ⟨p, _, rfl⟩ := List.mem_map.1 hb
      rfl
  · unfold PackageDownloadBatches
    rw [List.map_append, List.map_map, List.map_map, List.flatten_append]
    have h1 : (Batch.Packages ∘ fun packages =>
        ({ Period := period, Packages := packages } : Batch)) = id := rfl
    have h2 : (Batch.Packages ∘ fun pkg =>
        ({ Period := period, Packages := [pkg] } : Batch)) = fun pkg => [pkg] := rfl
    rw [h1, h2, List.map_id, Chunk_flatten_of_pos (show 0 < MaxBatchSize by decide),
      flatten_map_singleton]
    have := List.filter_append_perm (fun pkg => !IsScopedPackageName pkg) packageNames
    simpa [Bool.not_not] using this
  · intro h
    subst h
    simp [PackageDownloadBatches, Chunk_nil]

/-- C3 witness: the theorem evaluated on the spec's scenario input
`["left-pad", "@scope/pkg"]`. -/
theorem packageDownloadBatches_correct_witness :
    ((PackageDownloadBatches "last-day" ["left-pad", "@scope/pkg"]).map
        Batch.Packages).flatten.Perm ["left-pad", "@scope/pkg"] :=
  (packageDownloadBatches_correct "last-day" ["left-pad", "@scope/pkg"]).2.2.1

/-- C7: after a successful transport and decode of a single-package response,
`FetchBatchSingle` emits exactly one value: the error when the in-band
`Error` field is non-empty, and otherwise the response as a series — also
when its downloads list is empty (the witness below exercises that case).
It never emits both. -/
theorem fetchBatchSingle_error_xor_series (response : SinglePackageResponse) :
    (FetchBatchSingleEmits response).length = 1 ∧
    (response.Error ≠ "" → FetchBatchSingleEmits response = [FetchOut.error response.Error]) ∧
    (response.Error = "" → FetchBatchSingleEmits response = [FetchOut.series response]) := by
  refine ⟨?_, ?_, ?_⟩
  · by_cases h : response.Error = "" <;> simp [FetchBatchSingleEmits, h]
  · intro h
    simp [FetchBatchSingleEmits, bne_iff_ne, h]
  · intro h
    simp [FetchBatchSingleEmits, h]

/-- C7 witness: a response with empty `Error` and an empty downloads list is
emitted as exactly one series. -/
theorem fetchBatchSingle_error_xor_series_witness :
    FetchBatchSingleEmits witnessSingleResponse = [FetchOut.series witnessSingleResponse] :=
  (fetchBatchSingle_error_xor_series witnessSingleResponse).2.2 rfl

/-- C10: a batch with an empty package list matches neither the size-1 nor the
size-at-least-2 branch of `FetchBatch`, so nothing is emitted on either
stream, whatever the endpoints would have answered. -/
theorem fetchBatch_empty_no_emission (batch : Batch) (h : batch.Packages = [])
    (singleDecode : Except String SinglePackageResponse)
    (multiDecode : Except String (List (String × SinglePackageResponse))) :
    FetchBatchEmits batch singleDecode multiDecode = [] := by
  simp [FetchBatchEmits, h]

/-- C10 witness: the empty batch emits nothing even when both decode oracles
would have produced output. -/
theorem fetchBatch_empty_no_emission_witness :
    FetchBatchEmits { Period := "last-day", Packages := [] } (Except.error "boom")
      (Except.ok witnessManyResponses) = [] :=
  fetchBatch_empty_no_emission _ rfl _ _

/-- C5 (code bug in main.go lines 163-164): `slices.Compact(packages)`'s
return value is discarded, so the list handed to the batch partitioner is NOT
deduplicated.  With search hit "a" and explicit arguments "a", "a", the list
is `["a", "", ""]` (Go >= 1.22 zeroes the compacted-away tail): the empty
name occurs twice and the spurious "" entries are fetched as package names. -/
theorem mainPackageList_not_deduplicated :
    mainPackageList ["a"] ["a", "a"] = ["a", "", ""] ∧
    ¬ (mainPackageList ["a"] ["a", "a"]).Nodup := by
  refine ⟨by decide, by decide⟩

/-- C6 (code bug in main.go lines 271-280): `createBatchArgs` only logs a
date-parse failure and still produces a row carrying Go's zero `time.Time`
(year 1, month 1, day 1, weekday Monday = 1); no error reaches the insert
errors stream for that record (the Go function has no error result at all). -/
theorem createBatchArgs_zero_date_row :
    parseDate "not-a-date" = none ∧
    createBatchArgs 7 "pkg" [{ Downloads := 42, Day := "not-a-date" }] =
      [{ name := "pkg", count := 42, date := (1, 1, 1), last_updated_at := 7,
         date_year := 1, date_month := 1, date_day := 1, date_day_of_week := 1 }] := by
  refine ⟨by decide, by decide⟩

/-! ### C4: per-name normalization of a multi-package response -/

theorem countP_le_one_of_nodup (name : String) :
    (l : List String) → l.Nodup → l.countP (fun x => x == name) ≤ 1
  | [], _ => by simp
  | x :: xs, h => by
    rw [List.countP_cons]
    rcases List.nodup_cons.1 h with ⟨hx, hxs⟩
    by_cases hxn : x = name
    · subst hxn
      have hzero : xs.countP (fun y => y == x) = 0 := by
        rw [List.countP_eq_zero]
        intro y hy
        simp only [beq_iff_eq]
        intro hyx
        exact hx (hyx ▸ hy)
      simp [hzero]
    · have : (x == name) = false := beq_eq_false_iff_ne.2 hxn
      simpa [this] using countP_le_one_of_nodup name xs hxs

theorem one_le_countP_of_mem {name : String} {l : List String} (h : name ∈ l) :
    1 ≤ l.countP (fun x => x == name) :=
  List.countP_pos_iff.2 ⟨name, h, beq_self_eq_true name⟩

/-- C4: for every batch of at least two names and every decoded multi-package
response — a Go map, hence with distinct keys, whose key set is the queried
names — every queried name originates exactly one entry, and that entry is
normalized to exactly one emission: a not-found error for the key when the
entry's `Package` field is empty, and the entry as a series otherwise; never
both, never neither. -/
theorem fetchBatchMany_per_name (batch : Batch)
    (responses : List (String × SinglePackageResponse))
    (_hsize : 2 ≤ batch.Packages.length)
    (hkeys : (responses.map Prod.fst).Perm batch.Packages)
    (hnodup : (responses.map Prod.fst).Nodup) :
    ∀ name ∈ batch.Packages, ∃ r : SinglePackageResponse,
      responses.filter (fun entry => entry.1 == name) = [(name, r)] ∧
      FetchBatchManyEmits (responses.filter (fun entry => entry.1 == name)) =
        [emitManyEntry (name, r)] ∧
      (r.Package = "" → emitManyEntry (name, r) = FetchOut.error (notFoundMessage name)) ∧
      (r.Package ≠ "" → emitManyEntry (name, r) = FetchOut.series r) := by
  intro name hname
  have hPackNodup : batch.Packages.Nodup := (hkeys.nodup_iff).1 hnodup
  have hcount : responses.countP (fun entry => entry.1 == name) = 1 := by
    have hmapped : responses.countP (fun entry => entry.1 == name) =
        (responses.map Prod.fst).countP (fun x => x == name) :=
      (List.countP_map (fun x => x == name) Prod.fst responses).symm
    rw [hmapped, hkeys.countP_eq]
    have h1 := one_le_countP_of_mem hname
    have h2 := countP_le_one_of_nodup name batch.Packages hPackNodup
    omega
  have hlen : (responses.filter (fun entry => entry.1 == name)).length = 1 := by
    rw [← List.countP_eq_length_filter]
    exact hcount
  obtain ⟨entry, hentry⟩ := List.length_eq_one.1 hlen
  have hmem : entry ∈ responses.filter (fun e => e.1 == name) := by
    rw [hentry]; exact List.mem_singleton_self entry
  have hpred : (entry.1 == name) = true := (List.mem_filter.1 hmem).2
  have hent1 : entry.1 = name := by simpa using hpred
  obtain ⟨k, r⟩ := entry
  subst hent1
  refine ⟨r, hentry, by rw [hentry]; rfl, ?_, ?_⟩
  · intro h
    simp [emitManyEntry, h]
  · intro h
    have : (r.Package == "") = false := beq_eq_false_iff_ne.2 h
    simp [emitManyEntry, this]

/-- C4 witness: the spec's scenario — a response map with "a" present and "b"
carrying an empty `Package` field — applied to the queried name "b". -/
theorem fetchBatchMany_per_name_witness :
    ∃ r : SinglePackageResponse,
      witnessManyResponses.filter (fun entry => entry.1 == "b") = [("b", r)] ∧
      FetchBatchManyEmits (witnessManyResponses.filter (fun entry => entry.1 == "b")) =
        [emitManyEntry ("b", r)] ∧
      (r.Package = "" → emitManyEntry ("b", r) = FetchOut.error (notFoundMessage "b")) ∧
      (r.Package ≠ "" → emitManyEntry ("b", r) = FetchOut.series r) :=
  fetchBatchMany_per_name { Period := "last-week", Packages := ["a", "b"] }
    witnessManyResponses (by decide) (by decide) (by decide) "b" (by decide)

/-! ### C1: the conflict policy of the upsert statement -/

theorem execStatement_count_mono :
    (rows : List Row) → (st : Store) → (k : String × Nat × Nat × Nat) → (v : Row) →
    st k = some v → ∃ w, execStatement st rows k = some w ∧ v.count ≤ w.count
  | [], _, _, v, h => ⟨v, h, le_refl _⟩
  | r :: rows, st, k, v, h => by
    have hstep : ∃ v₁, upsertRow st r k = some v₁ ∧ v.count ≤ v₁.count := by
      unfold upsertRow
      by_cases hk : k = keyOf r
      · rw [if_pos hk, h]
        by_cases hc : v.count < r.count
        · exact ⟨rowUpdate v r, by simp [conflictStep, hc], le_of_lt hc⟩
        · exact ⟨v, by simp [conflictStep, hc], le_refl _⟩
      · rw [if_neg hk]
        exact ⟨v, h, le_refl _⟩
    obtain ⟨v₁, h₁, hle₁⟩ := hstep
    obtain ⟨w, hw, hle₂⟩ := execStatement_count_mono rows (upsertRow st r) k v₁ h₁
    exact ⟨w, hw, le_trans hle₁ hle₂⟩

/-- C1: the conflict policy of `DownloadsUpsertTemplate`.  For a stored row
`old` under the incoming row's key: an incoming count `≤ old.count` leaves the
whole store unchanged; an incoming count `> old.count` replaces exactly
`count` and `last_updated_at` (that is `rowUpdate`) and touches no other key;
an absent key is always inserted; and consequently no statement execution
ever decreases a stored count. -/
theorem upsert_monotone_conflict_policy (st : Store) (r : Row) :
    (∀ old, st (keyOf r) = some old → r.count ≤ old.count → upsertRow st r = st) ∧
    (∀ old, st (keyOf r) = some old → old.count < r.count →
      upsertRow st r (keyOf r) = some (rowUpdate old r) ∧
      ∀ k, k ≠ keyOf r → upsertRow st r k = st k) ∧
    (st (keyOf r) = none →
      upsertRow st r (keyOf r) = some r ∧ ∀ k, k ≠ keyOf r → upsertRow st r k = st k) ∧
    (∀ (rows : List Row) (k : String × Nat × Nat × Nat) (v : Row), st k = some v →
      ∃ w, execStatement st rows k = some w ∧ v.count ≤ w.count) := by
  refine ⟨?_, ?_, ?_, ?_⟩
  · intro old h hle
    funext k
    unfold upsertRow
    by_cases hk : k = keyOf r
    · subst hk
      rw [if_pos rfl, h]
      simp [conflictStep, not_lt.2 hle]
    · rw [if_neg hk]
  · intro old h hlt
    refine ⟨?_, ?_⟩
    · unfold upsertRow
      rw [if_pos rfl, h]
      simp [conflictStep, hlt]
    · intro k hk
      unfold upsertRow
      rw [if_neg hk]
  · intro h
    refine ⟨?_, ?_⟩
    · unfold upsertRow
      rw [if_pos rfl, h]
      rfl
    · intro k hk
      unfold upsertRow
      rw [if_neg hk]
  · intro rows k v h
    exact execStatement_count_mono rows st k v h

/-- C1 witness: on a store holding count 3 for key ("p", 2023, 3, 15), an
incoming row with count 5 updates exactly `count` and `last_updated_at`. -/
theorem upsert_monotone_conflict_policy_witness :
    upsertRow witnessStore witnessNewRow (keyOf witnessNewRow) =
      some (rowUpdate witnessOldRow witnessNewRow) :=
  ((upsert_monotone_conflict_policy witnessStore witnessNewRow).2.1 witnessOldRow
    (by decide) (by decide)).1

/-! ### C8: the pagination loop of Search -/

theorem hitsUpTo_succ_head {α : Type} (fetchPage : Nat → Except String (List α))
    (offset n : Nat) :
    hitsUpTo fetchPage offset (n + 1) =
      pageHits fetchPage offset 0 ++ hitsUpTo fetchPage (offset + PageSize) n := by
  unfold hitsUpTo
  rw [List.range_succ_eq_map, List.map_cons, List.flatten_cons, List.map_map]
  congr 1
  have hfun : (pageHits fetchPage offset ∘ Nat.succ) = pageHits fetchPage (offset + PageSize) := by
    funext k
    show pageHits fetchPage offset (k + 1) = pageHits fetchPage (offset + PageSize) k
    unfold pageHits
    have harith : offset + PageSize * (k + 1) = offset + PageSize + PageSize * k := by ring
    rw [harith]
  rw [hfun]

theorem searchPages_run {α : Type} (fetchPage : Nat → Except String (List α)) (n offset : Nat)
    (hfull : ∀ k, k < n → ∃ objects, fetchPage (offset + PageSize * k) = Except.ok objects ∧
      objects.length = PageSize) :
    (∀ e, fetchPage (offset + PageSize * n) = Except.error e →
      searchPages fetchPage (n + 1) offset =
        (hitsUpTo fetchPage offset n ++ [SearchEmit.err e], true)) ∧
    (∀ objects, fetchPage (offset + PageSize * n) = Except.ok objects →
      objects.length < PageSize →
      searchPages fetchPage (n + 1) offset =
        (hitsUpTo fetchPage offset n ++ objects.map SearchEmit.hit, true)) ∧
    (∀ objects, fetchPage (offset + PageSize * n) = Except.ok objects →
      objects.length = PageSize →
      searchPages fetchPage (n + 1) offset =
        (hitsUpTo fetchPage offset n ++ objects.map SearchEmit.hit, false)) := by
  induction n generalizing offset with
  | zero =>
    refine ⟨?_, ?_, ?_⟩
    · intro e he
      simp only [Nat.mul_zero, Nat.add_zero] at he
      simp [searchPages, he, hitsUpTo]
    · intro objects hobj hlt
      simp only [Nat.mul_zero, Nat.add_zero] at hobj
      simp [searchPages, hobj, hlt, hitsUpTo]
    · intro objects hobj hlen
      simp only [Nat.mul_zero, Nat.add_zero] at hobj
      simp [searchPages, hobj, hlen, hitsUpTo]
  | succ n ih =>
    obtain ⟨objs0, hobjs0, hlen0⟩ := hfull 0 (Nat.succ_pos n)
    simp only [Nat.mul_zero, Nat.add_zero] at hobjs0
    have hfull' : ∀ k, k < n → ∃ objects,
        fetchPage (offset + PageSize + PageSize * k) = Except.ok objects ∧
        objects.length = PageSize := by
      intro k hk
      have h := hfull (k + 1) (by omega)
      have harith : offset + PageSize * (k + 1) = offset + PageSize + PageSize * k := by ring
      rwa [harith] at h
    have ihs := ih (offset + PageSize) hfull'
    have harith2 : offset + PageSize * (n + 1) = offset + PageSize + PageSize * n := by ring
    have hpage0 : pageHits fetchPage offset 0 = objs0.map SearchEmit.hit := by
      unfold pageHits
      simp only [Nat.mul_zero, Nat.add_zero]
      rw [hobjs0]
    have hunfold : searchPages fetchPage (n + 1 + 1) offset =
        (objs0.map SearchEmit.hit ++ (searchPages fetchPage (n + 1) (offset + PageSize)).1,
          (searchPages fetchPage (n + 1) (offset + PageSize)).2) := by
      simp [searchPages, hobjs0, hlen0]
    refine ⟨?_, ?_, ?_⟩
    · intro e he
      rw [harith2] at he
      rw [hunfold, ihs.1 e he, hitsUpTo_succ_head, hpage0]
      simp
    · intro objects hobj hlt
      rw [harith2] at hobj
      rw [hunfold, ihs.2.1 objects hobj hlt, hitsUpTo_succ_head, hpage0]
      simp
    · intro objects hobj hlen
      rw [harith2] at hobj
      rw [hunfold, ihs.2.2 objects hobj hlen, hitsUpTo_succ_head, hpage0]
      simp

/-- C8: `Search` requests pages of the fixed size `PageSize = 250` at offsets
0, 250, 500, ... (page `k` at offset `PageSize * k`); every hit of every
fetched page is emitted to the results stream; pagination terminates exactly
when a page yields fewer than `PageSize` hits or a fetch fails — on a fetch
error exactly one error is emitted, no further hits follow and there is no
retry, while after a full page (third conjunct) the loop continues. -/
theorem search_pagination_correct {α : Type} (fetchPage : Nat → Except String (List α))
    (n : Nat)
    (hfull : ∀ k, k < n → ∃ objects, fetchPage (PageSize * k) = Except.ok objects ∧
      objects.length = PageSize) :
    (∀ e, fetchPage (PageSize * n) = Except.error e →
      searchPages fetchPage (n + 1) 0 =
        (hitsUpTo fetchPage 0 n ++ [SearchEmit.err e], true)) ∧
    (∀ objects, fetchPage (PageSize * n) = Except.ok objects → objects.length < PageSize →
      searchPages fetchPage (n + 1) 0 =
        (hitsUpTo fetchPage 0 n ++ objects.map SearchEmit.hit, true)) ∧
    (∀ objects, fetchPage (PageSize * n) = Except.ok objects → objects.length = PageSize →
      searchPages fetchPage (n + 1) 0 =
        (hitsUpTo fetchPage 0 n ++ objects.map SearchEmit.hit, false)) := by
  have h0 : ∀ k, k < n → ∃ objects, fetchPage (0 + PageSize * k) = Except.ok objects ∧
      objects.length = PageSize := by simpa using hfull
  have h := searchPages_run fetchPage n 0 h0
  simpa using h

/-- C8 witness: an oracle serving one full page at offset 0 and an empty page
at offset 250 terminates after the second page, emitting the full page's hits. -/
theorem search_pagination_correct_witness :
    searchPages witnessFetchPage 2 0 =
      (hitsUpTo witnessFetchPage 0 1 ++ List.map SearchEmit.hit ([] : List Nat), true) :=
  (search_pagination_correct witnessFetchPage 1 (fun k hk => by
      have hk0 : k = 0 := by omega
      subst hk0
      exact ⟨List.replicate PageSize 0, rfl, by simp⟩)).2.1 [] rfl (by decide)

/-! ### C2: idempotence of the upsert under non-decreasing counts -/

theorem conflictStep_bump (base : Row) (o : Option Row) (c : Int) :
    conflictStep o (bump base c) = Fstep base o c := by
  cases o <;> rfl

theorem Fstep_Fstep (base : Row) (o : Option Row) (c m : Int) :
    Fstep base (Fstep base o c) m = Fstep base o (max c m) := by
  rcases le_total c m with hcm | hmc
  · rw [max_eq_right hcm]
    cases o with
    | none =>
      show (if (bump base c).count < m then some (rowUpdate (bump base c) (bump base m))
          else some (bump base c)) = some (bump base m)
      by_cases h : c < m
      · rw [if_pos (show (bump base c).count < m from h)]
        rfl
      · have hce : c = m := le_antisymm hcm (not_lt.1 h)
        subst hce
        rw [if_neg (show ¬ (bump base c).count < c from h)]
    | some v =>
      by_cases h1 : v.count < c
      · have e1 : Fstep base (some v) c = some (rowUpdate v (bump base c)) := if_pos h1
        rw [e1]
        show (if (rowUpdate v (bump base c)).count < m then
            some (rowUpdate (rowUpdate v (bump base c)) (bump base m))
          else some (rowUpdate v (bump base c))) =
          (if v.count < m then some (rowUpdate v (bump base m)) else some v)
        rw [if_pos (show v.count < m from lt_of_lt_of_le h1 hcm)]
        by_cases h2 : c < m
        · rw [if_pos (show (rowUpdate v (bump base c)).count < m from h2)]
          rfl
        · have hce : c = m := le_antisymm hcm (not_lt.1 h2)
          subst hce
          rw [if_neg (show ¬ (rowUpdate v (bump base c)).count < c from h2)]
      · have e1 : Fstep base (some v) c = some v := if_neg h1
        rw [e1]
  · rw [max_eq_left hmc]
    cases o with
    | none =>
      show (if (bump base c).count < m then some (rowUpdate (bump base c) (bump base m))
          else some (bump base c)) = some (bump base c)
      rw [if_neg (show ¬ (bump base c).count < m from not_lt.2 hmc)]
    | some v =>
      by_cases h1 : v.count < c
      · have e1 : Fstep base (some v) c = some (rowUpdate v (bump base c)) := if_pos h1
        rw [e1]
        show (if (rowUpdate v (bump base c)).count < m then
            some (rowUpdate (rowUpdate v (bump base c)) (bump base m))
          else some (rowUpdate v (bump base c))) = some (rowUpdate v (bump base c))
        rw [if_neg (show ¬ (rowUpdate v (bump base c)).count < m from not_lt.2 hmc)]
      · have e1 : Fstep base (some v) c = some v := if_neg h1
        rw [e1]
        show (if v.count < m then some (rowUpdate v (bump base m)) else some v) = some v
        rw [if_neg (show ¬ v.count < m from not_lt.2 (le_trans hmc (not_lt.1 h1)))]

theorem foldl_conflictStep_bump (base : Row) :
    (ks : List Int) → (o : Option Row) → (c : Int) →
    ks.foldl (fun acc x => conflictStep acc (bump base x)) (Fstep base o c) =
      Fstep base o (ks.foldl max c)
  | [], _, _ => rfl
  | x :: ks, o, c => by
    show ks.foldl (fun acc y => conflictStep acc (bump base y))
        (conflictStep (Fstep base o c) (bump base x)) =
      Fstep base o (ks.foldl max (max c x))
    rw [conflictStep_bump, Fstep_Fstep]
    exact foldl_conflictStep_bump base ks o (max c x)

theorem le_foldl_max : (l : List Int) → (a : Int) → a ≤ l.foldl max a
  | [], a => le_refl a
  | x :: l, a => le_trans (le_max_left a x) (le_foldl_max l (max a x))

theorem mem_le_foldl_max : (l : List Int) → {x : Int} → x ∈ l → (a : Int) → x ≤ l.foldl max a
  | [], _, hx, _ => absurd hx (List.not_mem_nil _)
  | y :: l, x, hx, a => by
    rcases List.mem_cons.1 hx with rfl | hx
    · exact le_trans (le_max_right a x) (le_foldl_max l (max a x))
    · exact mem_le_foldl_max l hx (max a y)

theorem foldl_max_le : (l : List Int) → {a c : Int} → a ≤ c → (∀ x ∈ l, x ≤ c) →
    l.foldl max a ≤ c
  | [], _, _, ha, _ => ha
  | x :: l, _, _, ha, hl =>
    foldl_max_le l (max_le ha (hl x (List.mem_cons_self x l)))
      (fun y hy => hl y (List.mem_cons_of_mem x hy))

theorem foldl_max_mono : (l : List Int) → {a b : Int} → a ≤ b → l.foldl max a ≤ l.foldl max b
  | [], _, _, h => h
  | x :: l, _, _, h => foldl_max_mono l (max_le_max h (le_refl x))

theorem foldl_max_forall₂ {cs ds : List Int} (h : List.Forall₂ (· ≤ ·) cs ds) :
    ∀ {a b : Int}, a ≤ b → cs.foldl max a ≤ ds.foldl max b := by
  induction h with
  | nil => exact fun hab => hab
  | @cons c d cs' ds' hc _ ih => exact fun hab => ih (max_le_max hab hc)

theorem maxfold_append_eq {cs' ds' : List Int} (h : List.Forall₂ (· ≤ ·) cs' ds')
    {c d : Int} (hcd : c ≤ d) :
    (cs' ++ d :: ds').foldl max c = ds'.foldl max d := by
  rw [List.foldl_append]
  show ds'.foldl max (max (cs'.foldl max c) d) = ds'.foldl max d
  apply le_antisymm
  · apply foldl_max_le
    · exact max_le (foldl_max_forall₂ h hcd) (le_foldl_max ds' d)
    · exact fun x hx => mem_le_foldl_max ds' hx d
  · exact foldl_max_mono ds' (le_max_right _ _)

theorem foldl_conflictStep_dominated (base : Row) {cs ds : List Int}
    (hcd : List.Forall₂ (· ≤ ·) cs ds) (o : Option Row) :
    (cs.map (bump base) ++ ds.map (bump base)).foldl conflictStep o =
      (ds.map (bump base)).foldl conflictStep o := by
  cases hcd with
  | nil => rfl
  | @cons c d cs' ds' hc hrest =>
    rw [← List.map_append]
    have hshape : (c :: cs') ++ d :: ds' = c :: (cs' ++ d :: ds') := rfl
    rw [hshape, List.foldl_map]
    show (cs' ++ d :: ds').foldl (fun acc x => conflictStep acc (bump base x))
        (conflictStep o (bump base c)) = ((d :: ds').map (bump base)).foldl conflictStep o
    rw [conflictStep_bump, foldl_conflictStep_bump base (cs' ++ d :: ds') o c,
      maxfold_append_eq hrest hc, List.foldl_map]
    show Fstep base o (ds'.foldl max d) =
      ds'.foldl (fun acc x => conflictStep acc (bump base x)) (conflictStep o (bump base d))
    rw [conflictStep_bump, foldl_conflictStep_bump base ds' o d]

theorem execStatement_apply :
    (rows : List Row) → (st : Store) → (k : String × Nat × Nat × Nat) →
    execStatement st rows k =
      (rows.filter (fun r => decide (keyOf r = k))).foldl conflictStep (st k)
  | [], _, _ => rfl
  | r :: rows, st, k => by
    show execStatement (upsertRow st r) rows k = _
    rw [execStatement_apply rows (upsertRow st r) k, List.filter_cons]
    by_cases hk : keyOf r = k
    · rw [if_pos (decide_eq_true hk)]
      have h1 : upsertRow st r k = conflictStep (st k) r := if_pos hk.symm
      rw [h1]
      rfl
    · rw [if_neg (by simp [hk])]
      have h1 : upsertRow st r k = st k := if_neg (fun h => hk h.symm)
      rw [h1]

theorem keyOf_rowOfPoint (nm : String) (t : Nat) (p : DailyDownload) :
    keyOf (rowOfPoint nm t p) = (nm, ymdOf p.Day) := rfl

theorem rowOfPoint_eq_bump {nm : String} {t : Nat} {p : DailyDownload}
    {k : String × Nat × Nat × Nat} (h : keyOf (rowOfPoint nm t p) = k) :
    rowOfPoint nm t p = bump (baseRowOfKey t k) p.Downloads := by
  subst h
  rfl

theorem filter_createBatchArgs_pair (nm : String) (t : Nat) (k : String × Nat × Nat × Nat)
    {pts1 pts2 : List DailyDownload}
    (hrel : List.Forall₂ (fun p q => p.Day = q.Day ∧ p.Downloads ≤ q.Downloads) pts1 pts2) :
    ∃ cs ds : List Int, List.Forall₂ (· ≤ ·) cs ds ∧
      (createBatchArgs t nm pts1).filter (fun r => decide (keyOf r = k)) =
        cs.map (bump (baseRowOfKey t k)) ∧
      (createBatchArgs t nm pts2).filter (fun r => decide (keyOf r = k)) =
        ds.map (bump (baseRowOfKey t k)) := by
  induction hrel with
  | nil => exact ⟨[], [], List.Forall₂.nil, rfl, rfl⟩
  | @cons p q pts1' pts2' hpq hrest ih =>
    obtain ⟨cs, ds, hcd, h1, h2⟩ := ih
    obtain ⟨hday, hcount⟩ := hpq
    have hkeyq : keyOf (rowOfPoint nm t q) = keyOf (rowOfPoint nm t p) := by
      rw [keyOf_rowOfPoint, keyOf_rowOfPoint, hday]
    have hcons1 : createBatchArgs t nm (p :: pts1') =
        rowOfPoint nm t p :: createBatchArgs t nm pts1' := rfl
    have hcons2 : createBatchArgs t nm (q :: pts2') =
        rowOfPoint nm t q :: createBatchArgs t nm pts2' := rfl
    by_cases hk : keyOf (rowOfPoint nm t p) = k
    · refine ⟨p.Downloads :: cs, q.Downloads :: ds, List.Forall₂.cons hcount hcd, ?_, ?_⟩
      · rw [hcons1, List.filter_cons, if_pos (decide_eq_true hk), h1, rowOfPoint_eq_bump hk]
        rfl
      · rw [hcons2, List.filter_cons, if_pos (decide_eq_true (hkeyq.trans hk)), h2,
          rowOfPoint_eq_bump (hkeyq.trans hk)]
        rfl
    · refine ⟨cs, ds, hcd, ?_, ?_⟩
      · rw [hcons1, List.filter_cons, if_neg (by simp [hk]), h1]
      · rw [hcons2, List.filter_cons, if_neg (by simp [hkeyq, hk]), h2]

theorem foldl_exec_chunks (t : Nat) (nm : String) :
    (L : List (List DailyDownload)) → (st : Store) →
    L.foldl (fun s b => execStatement s (createBatchArgs t nm b)) st =
      execStatement st (createBatchArgs t nm L.flatten)
  | [], _ => rfl
  | b :: L, st => by
    show L.foldl (fun s c => execStatement s (createBatchArgs t nm c))
        (execStatement st (createBatchArgs t nm b)) =
      execStatement st (createBatchArgs t nm (b ++ L.flatten))
    rw [foldl_exec_chunks t nm L (execStatement st (createBatchArgs t nm b))]
    unfold createBatchArgs execStatement
    rw [List.map_append, List.foldl_append]

theorem scheduleInsertsState_eq_exec (st : Store) {batchSize : Nat} (hbs : 0 < batchSize)
    (pkg : SinglePackageResponse) (t : Nat) :
    scheduleInsertsState st batchSize pkg t =
      execStatement st (createBatchArgs t pkg.Package pkg.Downloads) := by
  unfold scheduleInsertsState
  rw [foldl_exec_chunks t pkg.Package (Chunk pkg.Downloads batchSize) st,
    Chunk_flatten_of_pos hbs]

/-- C2: applying the upserts of a series twice, where the second application's
per-day counts dominate the first's pointwise (so the second series carries
the maximum observed count per day), produces a storage state identical to
applying the dominating series once — from any initial state, for any
positive sub-batch size and any common run timestamp. -/
theorem upsert_idempotent_nondecreasing (st : Store) {batchSize : Nat} (hbs : 0 < batchSize)
    (r1 r2 : SinglePackageResponse) (t : Nat) (hname : r1.Package = r2.Package)
    (hrel : List.Forall₂ (fun p q => p.Day = q.Day ∧ p.Downloads ≤ q.Downloads)
      r1.Downloads r2.Downloads) :
    scheduleInsertsState (scheduleInsertsState st batchSize r1 t) batchSize r2 t =
      scheduleInsertsState st batchSize r2 t := by
  have e1 := scheduleInsertsState_eq_exec st hbs r1 t
  rw [hname] at e1
  rw [e1, scheduleInsertsState_eq_exec _ hbs r2 t, scheduleInsertsState_eq_exec st hbs r2 t]
  funext k
  rw [execStatement_apply, execStatement_apply, execStatement_apply, ← List.foldl_append]
  obtain ⟨cs, ds, hcd, h1, h2⟩ := filter_createBatchArgs_pair r2.Package t k hrel
  rw [h1, h2, foldl_conflictStep_dominated (baseRowOfKey t k) hcd, ← h2]

/-- C2 witness: re-ingesting the one-day series for package "p" with the count
raised from 3 to 5 leaves the same store as ingesting the count-5 series
directly into the empty store. -/
theorem upsert_idempotent_nondecreasing_witness :
    scheduleInsertsState (scheduleInsertsState emptyStore 100 witnessSeries1 7) 100
        witnessSeries2 7 =
      scheduleInsertsState emptyStore 100 witnessSeries2 7 :=
  upsert_idempotent_nondecreasing emptyStore (by decide) witnessSeries1 witnessSeries2 7 rfl
    (List.Forall₂.cons ⟨rfl, by decide⟩ List.Forall₂.nil)

end NpmDownloads
